import Mathlib

/-!
Shallow embedding of the project-generation core of this repository:
the UUID service, template substitution and file-tree utilities of
cugl/scripts/util.py, and the pbxproj parser/serializer/patcher of
cugl/sdlapp/scripts/apple.py.

Python strings are modelled as lists of characters; Python None as
Option.none; functions that can raise an exception return Option or a
dedicated result type.  Python dictionaries (which preserve insertion
order and have unique keys) are modelled as association lists with
in-place update.  The semantics of Python primitives that the source
relies on (str.find with a possibly negative start index, negative
slice indices, str.replace, str.split, iteration of a file by lines)
are embedded explicitly below.
-/

/-- A Python string: a finite sequence of characters. -/
abbrev PyStr := List Char

/-- Python needle.isPrefixOf-style test: the first list is an initial
segment of the second. -/
def isPre : PyStr → PyStr → Bool
  | [], _ => true
  | _ :: _, [] => false
  | a :: as, b :: bs => a == b && isPre as bs

/-- Smallest index at which needle occurs in hay, if any. -/
def findFrom (hay needle : PyStr) : Option Nat :=
  match hay with
  | [] => if isPre needle [] then some 0 else none
  | _ :: rest =>
    if isPre needle hay then some 0
    else (findFrom rest needle).map (fun k => k + 1)

/-- Substring test, as the Python operator in for strings. -/
def isSubstr (needle hay : PyStr) : Bool := (findFrom hay needle).isSome

/-- Python str.find(sub, start): start may be negative (counted from the
end, clamped at 0); a start beyond the end yields -1; result is the
smallest index at or after start where sub occurs, or -1. -/
def pyFind (hay needle : PyStr) (start : Int) : Int :=
  let n : Int := (hay.length : Int)
  let st : Int := if start < 0 then max (n + start) 0 else start
  if st > n then -1
  else
    match findFrom (hay.drop st.toNat) needle with
    | some k => st + (k : Int)
    | none => -1

/-- Python slice s[:i] with a possibly negative index. -/
def pySliceTo (s : PyStr) (i : Int) : PyStr :=
  let n : Int := (s.length : Int)
  let j : Int := if i < 0 then max (n + i) 0 else min i n
  s.take j.toNat

/-- Python slice s[i:] with a possibly negative index. -/
def pySliceFrom (s : PyStr) (i : Int) : PyStr :=
  let n : Int := (s.length : Int)
  let j : Int := if i < 0 then max (n + i) 0 else min i n
  s.drop j.toNat

/-- Python sep.join(entries). -/
def joinSep (sep : PyStr) : List PyStr → PyStr
  | [] => []
  | [e] => e
  | e :: rest => e ++ sep ++ joinSep sep rest

/-- Helper for pyLines: splits off complete lines, carrying the
characters of the current line in reverse. -/
def linesAux : PyStr → PyStr → List PyStr
  | [], acc => if acc = [] then [] else [acc.reverse]
  | c :: rest, acc =>
    if c = '\n' then (acc.reverse ++ ['\n']) :: linesAux rest []
    else linesAux rest (c :: acc)

/-- Iterating a Python file (or splitting a string) into lines: every
line keeps its terminating newline; the final line may lack one; no
empty lines are produced. -/
def pyLines (s : PyStr) : List PyStr := linesAux s []

/-- Contribution of one character to a brace count. -/
def parityChar (c : Char) : Int :=
  if c = '\x7b' then 1 else if c = '\x7d' then -1 else 0

/-- group_parity from util.py, specialised to the brace pair as used by
parse_pbxproj: opening braces minus closing braces. -/
def group_parity (s : PyStr) : Int := (s.map parityChar).sum

/-- Python str.upper on one character (all characters in play are
ASCII). -/
def pyUpper (c : Char) : Char := c.toUpper

/-- Recursive worker for pyReplace when the needle is nonempty; the
fuel starts at the length of the scanned string, which each step
shrinks by at least one. -/
def pyReplaceAux (key val : PyStr) : Nat → PyStr → PyStr
  | 0, s => s
  | _ + 1, [] => []
  | fuel + 1, c :: rest =>
    if isPre key (c :: rest) then
      val ++ pyReplaceAux key val fuel (rest.drop (key.length - 1))
    else c :: pyReplaceAux key val fuel rest

/-- Python s.replace(key, val): replaces every non-overlapping
occurrence left to right; an empty key inserts val at every position. -/
def pyReplace (s key val : PyStr) : PyStr :=
  if key = [] then val ++ (s.map (fun c => [c] ++ val)).flatten
  else pyReplaceAux key val s.length s

/- ### UUIDService (util.py lines 20-192) -/

/-- The mutable state of a UUIDService instance: the set of every
identifier handed out, plus the per-URL caches for the two
namespaces. -/
structure UUIDService where
  uniques : List PyStr
  apples : List (PyStr × PyStr)
  windows : List (PyStr × PyStr)
deriving DecidableEq

/-- The maximum number of retries on failure (util.py line 34). -/
def MAX_TRIES : Nat := 8

/-- The size of an Apple UUID (util.py line 37). -/
def APPLE_SIZE : Nat := 24

/-- The alphabet handed to shortuuid in the service constructor. -/
def SHORT_ALPHABET : PyStr := "abcdefABCDEF0123456789".data

/-- First value of an association list under a key, if present. -/
def assocFind (d : List (PyStr × PyStr)) (k : PyStr) : Option PyStr :=
  match d with
  | [] => none
  | (a, b) :: rest => if a = k then some b else assocFind rest k

/-- A fresh service, as built by the constructor. -/
def UUIDService.init : UUIDService := ⟨[], [], []⟩

/-- The recursion of _compute_Apple_UUID_, on the number of attempts
still allowed (MAX_TRIES minus the attempts already made): zero
attempts left raises RuntimeError (none); otherwise the candidate is
recomputed, retried on collision, returned otherwise. -/
def computeAppleFuel (h : PyStr → PyStr) (uniques : List PyStr) (url : PyStr) :
    Nat → Option PyStr
  | 0 => none
  | fuel + 1 =>
    let result := ((h url).map pyUpper).take APPLE_SIZE
    if result ∈ uniques then computeAppleFuel h uniques url fuel
    else some result

/-- _compute_Apple_UUID_ (util.py lines 111-135).  The third-party
shortuuid hash is abstracted as the function h.  Returns none when the
code raises RuntimeError once tries reaches MAX_TRIES.  Note that the
source recomputes the identical candidate on every retry: the retry
counter is not an input of the hash. -/
def compute_Apple_UUID (h : PyStr → PyStr) (uniques : List PyStr) (url : PyStr)
    (tries : Nat) : Option PyStr :=
  computeAppleFuel h uniques url (MAX_TRIES - tries)

/-- getAppleUUID (util.py lines 82-109): returns the cached identifier
for url if present; otherwise computes one, records it (when truthy) in
the uniqueness set and the Apple cache, and returns it together with
the updated service state.  none models the RuntimeError escape. -/
def getAppleUUID (h : PyStr → PyStr) (svc : UUIDService) (url : PyStr) :
    Option PyStr × UUIDService :=
  match assocFind svc.apples url with
  | some v => (some v, svc)
  | none =>
    match compute_Apple_UUID h svc.uniques url 0 with
    | none => (none, svc)
    | some r =>
      if r ≠ [] then
        (some r, { svc with uniques := svc.uniques ++ [r], apples := svc.apples ++ [(url, r)] })
      else (some r, svc)

/-- applyPrefix (util.py lines 48-80): overlays a prefix onto a UUID
character by character, keeping every dash of the UUID in place, and
truncates the result to the length of the UUID. -/
def applyPrefix (pfx uuid : PyStr) : PyStr :=
  ((List.range (max pfx.length uuid.length)).map (fun ii =>
    if ii < uuid.length ∧ uuid.getD ii ' ' = '-' then uuid.getD ii ' '
    else if ii < pfx.length then pfx.getD ii ' '
    else uuid.getD ii ' ')).take uuid.length

/- ### File trees (util.py lines 600-626) -/

/-- Helper for pySplit, carrying the current component in reverse. -/
def pySplitAux (sep : Char) : PyStr → PyStr → List PyStr
  | [], acc => [acc.reverse]
  | c :: rest, acc =>
    if c = sep then acc.reverse :: pySplitAux sep rest []
    else pySplitAux sep rest (c :: acc)

/-- Python s.split(sep) for a one-character separator: always yields at
least one (possibly empty) component. -/
def pySplit (sep : Char) (s : PyStr) : List PyStr := pySplitAux sep s []

/-- A filetree value: a Python dict from names to subtrees, or a leaf
holding a target tag string. -/
inductive FTree where
  | node (entries : List (PyStr × FTree)) : FTree
  | leaf (tag : PyStr) : FTree

/-- Lookup in a filetree dict (Python d.get). -/
def ftLookup : List (PyStr × FTree) → PyStr → Option FTree
  | [], _ => none
  | (a, b) :: rest, k => if a = k then some b else ftLookup rest k

/-- Python dict assignment d[k] = v: replaces in place when the key is
present (its position is kept), otherwise appends. -/
def ftSet : List (PyStr × FTree) → PyStr → FTree → List (PyStr × FTree)
  | [], k, v => [(k, v)]
  | (a, b) :: rest, k, v =>
    if a = k then (a, v) :: rest else (a, b) :: ftSet rest k v

/-- The walk of insert_filetree for one path.  Walking into a leaf
string raises a TypeError in the source (string membership followed by
string indexing or item assignment), modelled as none.  An empty path
leaves prev as None so nothing is written. -/
def insertPath (d : List (PyStr × FTree)) (path : List PyStr) (target : PyStr) :
    Option (List (PyStr × FTree)) :=
  match path with
  | [] => some d
  | [e] => some (ftSet d e (FTree.leaf target))
  | e :: rest =>
    let d2 := if (ftLookup d e).isSome then d else d ++ [(e, FTree.node [])]
    match ftLookup d2 e with
    | some (FTree.node sub) =>
      (insertPath sub rest target).map (fun sub2 => ftSet d2 e (FTree.node sub2))
    | some (FTree.leaf _) => none
    | none => none

/-- insert_filetree (util.py lines 600-626): inserts each file path,
split on the POSIX separator, tagging the final component with the
target. -/
def insert_filetree (filetree : List (PyStr × FTree)) (files : List PyStr)
    (target : PyStr) : Option (List (PyStr × FTree)) :=
  files.foldl (fun acc f => acc.bind (fun d => insertPath d (pySplit '/' f) target))
    (some filetree)

/- ### file_replace and file_replace_after (util.py lines 531-597) -/

/-- Outcome of file_replace / file_replace_after: either the text that
is written back, or the FileNotFoundError raised when the substituted
contents are falsy. -/
inductive ReplaceResult where
  | written (s : PyStr) : ReplaceResult
  | fileNotFoundError : ReplaceResult
deriving DecidableEq

/-- The substitution pass of file_replace: replace every key of data by
its value, in order. -/
def substAll (contents : PyStr) (data : List (PyStr × PyStr)) : PyStr :=
  data.foldl (fun c kv => pyReplace c kv.1 kv.2) contents

/-- file_replace (util.py lines 531-558) on the contents of an existing
file: performs all substitutions, then writes the result back unless it
is falsy (the empty string), in which case FileNotFoundError is raised
even though the file exists. -/
def file_replace (contents : PyStr) (data : List (PyStr × PyStr)) : ReplaceResult :=
  let c := substAll contents data
  if c ≠ [] then ReplaceResult.written c else ReplaceResult.fileNotFoundError

/-- One key of the while loop of file_replace_after (util.py lines
582-591), with fuel for the unbounded loop: none models
non-termination within the given fuel.  Each pass recomputes pos0 from
the previous pos1; crucially the splice in the loop body is executed
once more after find returns -1, with Python negative-index
semantics. -/
def fraLoop (key val : PyStr) : Nat → PyStr → Int → Option PyStr
  | 0, _, _ => none
  | fuel + 1, contents, pos1 =>
    let pos0a := pyFind contents key pos1
    let pos0 := if pos0a ≠ -1 then pos0a + (key.length : Int) else pos0a
    let pos1a := pyFind contents ['\n'] pos0
    let pos1b := if pos1a = -1 then (contents.length : Int) else pos1a
    let contents2 := pySliceTo contents pos0 ++ val ++ pySliceFrom contents pos1b
    if pos0a = -1 then some contents2
    else fraLoop key val fuel contents2 pos1b

/-- The substitution pass of file_replace_after (util.py lines
578-591): for each key in order, run the scan-and-splice loop. -/
def substAfterAll (contents : PyStr) (data : List (PyStr × PyStr)) (fuel : Nat) :
    Option PyStr :=
  data.foldl (fun acc kv => acc.bind (fun c => fraLoop kv.1 kv.2 fuel c 0))
    (some contents)

/-- file_replace_after (util.py lines 561-597) on the contents of an
existing file: the per-key loop for every key, then the same
truthiness-guarded write-back as file_replace. -/
def file_replace_after (contents : PyStr) (data : List (PyStr × PyStr)) (fuel : Nat) :
    Option ReplaceResult :=
  (substAfterAll contents data fuel).map (fun c =>
    if c ≠ [] then ReplaceResult.written c else ReplaceResult.fileNotFoundError)

/- ### place_entries (apple.py lines 243-270) -/

/-- place_entries: finds the anchor text built from the parent keyword,
then inserts the newline-indented entries just before the newline that
ends the anchor line.  Returns none (Python None) when the anchor is
absent. -/
def place_entries (obj : PyStr) (entries : List PyStr) (pfx : PyStr) : Option PyStr :=
  let indent := "\n\t\t\t\t".data
  let line := pyFind obj (pfx ++ " = (".data) 0
  if line = -1 then none
  else
    let pos := pyFind obj ['\n'] line
    let children := indent ++ joinSep indent entries
    some (pySliceTo obj pos ++ children ++ pySliceFrom obj pos)

/-- The PBXGroup rewrite loop of populate_assets (apple.py lines
479-482): every stored block containing the Assets marker is replaced
by the result of place_entries, even when that result is None. -/
def populate_assets_groups (groups : List (Option PyStr)) (children : List PyStr) :
    List (Option PyStr) :=
  groups.map (fun g =>
    match g with
    | some s =>
      if isSubstr "/* Assets */ =".data s then place_entries s children "children".data
      else some s
    | none => none)

/- ### parse_pbxproj and write_pbxproj (apple.py lines 41-131) -/

/-- The components of a pbxproj file (apple.py lines 22-25). -/
def PBX_SEQUENCE : List String :=
  ["PBXHeader", "PBXBuildFile", "PBXContainerItemProxy", "PBXFileReference",
   "PBXFrameworksBuildPhase", "PBXGroup", "PBXNativeTarget", "PBXProject",
   "PBXReferenceProxy", "PBXResourcesBuildPhase", "PBXSourcesBuildPhase",
   "XCBuildConfiguration", "XCConfigurationList", "PBXFooter"]

/-- Name of the schema section at a given index. -/
def stateName (i : Nat) : String := PBX_SEQUENCE.getD i ""

/-- The opening banner comment of a section. -/
def beginBanner (name : String) : PyStr :=
  "/* Begin ".data ++ name.data ++ " section */".data

/-- The closing banner comment of a section. -/
def endBanner (name : String) : PyStr :=
  "/* End ".data ++ name.data ++ " section */".data

/-- The parse result: an ordered mapping from section name to the list
of accumulated blocks.  A block is an Option because the final
unconditional block.append(accum) of the parser can append None. -/
abbrev Model := List (String × List (Option PyStr))

/-- The state of the line scan of parse_pbxproj: current section index,
the finished sections in order, the block list of the current section,
the accumulation buffer, the brace depth, and the between-blocks
flag. -/
structure PState where
  index : Nat
  done : Model
  block : List (Option PyStr)
  accum : Option PyStr
  brace : Int
  between : Bool
deriving DecidableEq

/-- The initial scan state. -/
def pinit : PState := ⟨0, [], [], none, 0, false⟩

/-- The flush performed when advancing to the next section: a truthy
accumulator is appended to the current block list. -/
def flushB (st : PState) : List (Option PyStr) :=
  match st.accum with
  | some a => if a ≠ [] then st.block ++ [some a] else st.block
  | none => st.block

/-- One line of the scan of parse_pbxproj (apple.py lines 70-104).
none models the abort (print and return None) on a negative brace
count. -/
def pstep (st : PState) (line : PyStr) : Option PState :=
  let sname := stateName st.index
  let adv := sname ≠ "PBXFooter" ∧
    isSubstr (beginBanner (stateName (st.index + 1))) line = true
  let comp := isSubstr (endBanner sname) line = true
  if adv ∨ (comp ∧ st.index = PBX_SEQUENCE.length - 2) then
    some { index := st.index + 1, done := st.done ++ [(sname, flushB st)],
           block := [], accum := none, brace := 0, between := false }
  else if sname = "PBXHeader" ∨ sname = "PBXFooter" then
    some { st with accum := some (st.accum.getD [] ++ line) }
  else if comp then
    match st.accum with
    | some a =>
      if a ≠ [] ∧ a ≠ ['\n'] then
        some { st with block := st.block ++ [some a], between := true }
      else some st
    | none => some st
  else if st.between = false then
    let br := st.brace + group_parity line
    if br < 0 then none
    else
      let a := st.accum.getD [] ++ line
      if br = 0 then
        if a ≠ ['\n'] then
          some { st with block := st.block ++ [some a], accum := none, brace := 0 }
        else some { st with accum := none, brace := 0 }
      else some { st with accum := some a, brace := br }
  else some st

/-- Folding the scan over a list of lines from a given state. -/
def foldP (st : PState) (ls : List PyStr) : Option PState :=
  ls.foldl (fun o l => o.bind (fun s => pstep s l)) (some st)

/-- End of input: the accumulator is appended unconditionally and the
dictionary of sections, current one included, is returned. -/
def pfinish (st : PState) : Model :=
  st.done ++ [(stateName st.index, st.block ++ [st.accum])]

/-- parse_pbxproj on a list of lines. -/
def parseLines (ls : List PyStr) : Option Model := (foldP pinit ls).map pfinish

/-- parse_pbxproj (apple.py lines 41-109) on the text of the
project.pbxproj file. -/
def parse_pbxproj (text : PyStr) : Option Model := parseLines (pyLines text)

/-- Concatenation of the blocks of a section as written by
write_pbxproj; none when a block is None (Python file.write(None)
raises). -/
def joinBlocks : List (Option PyStr) → Option PyStr
  | [] => some []
  | some b :: rest => (joinBlocks rest).map (fun r => b ++ r)
  | none :: _ => none

/-- The text written for one section: banners around the blocks for
content sections, bare blocks for header and footer. -/
def sectionText (name : String) (items : List (Option PyStr)) : Option PyStr :=
  (joinBlocks items).map (fun body =>
    if name = "PBXHeader" ∨ name = "PBXFooter" then body
    else beginBanner name ++ ['\n'] ++ body ++ endBanner name ++ ['\n', '\n'])

/-- write_pbxproj (apple.py lines 112-131): emits every section of the
model in stored order. -/
def write_pbxproj : Model → Option PyStr
  | [] => some []
  | (name, items) :: rest =>
    match sectionText name items, write_pbxproj rest with
    | some t, some r => some (t ++ r)
    | _, _ => none

/-- The running values taken by the brace counter during the scan: the
depth after each processed line, ending with the first negative value
when the scan aborts there. -/
def braceDepths (st : PState) : List PyStr → List Int
  | [] => []
  | l :: rest =>
    match pstep st l with
    | none => [st.brace + group_parity l]
    | some st2 => st2.brace :: braceDepths st2 rest

/- ### Canonical well-formed models, for the round-trip analysis -/

/-- The model built from a header given by its lines, content sections
given as blocks of lines (for schema indices starting at i), and a
footer string. -/
def mkSecs (i : Nat) : List (List (List PyStr)) → Model
  | [] => []
  | sec :: rest =>
    (stateName i, sec.map (fun b => some b.flatten)) :: mkSecs (i + 1) rest

/-- A full model: header section, the twelve content sections, footer
section. -/
def mkModel (hdr : List PyStr) (secs : List (List (List PyStr))) (ftr : PyStr) : Model :=
  ("PBXHeader", [some hdr.flatten]) :: mkSecs 1 secs ++ [("PBXFooter", [some ftr])]

/-- A single line: nonempty, ends with a newline, and contains no
interior newline. -/
def isLine (l : PyStr) : Bool :=
  decide (l.getLast? = some '\n') && decide ('\n' ∉ l.dropLast)

/-- Brace-depth discipline of the lines of one block, relative to a
starting depth: strictly positive after every line but the last, zero
after the last. -/
def goodDepths (d : Int) : List PyStr → Bool
  | [] => false
  | [l] => decide (d + group_parity l = 0)
  | l :: rest => decide (0 < d + group_parity l) && goodDepths (d + group_parity l) rest

/-- A well-formed content block for schema index i, given by its lines:
nonempty, not a lone blank line, every line a proper line free of the
two banner markers the scan reacts to in section i, and brace-balanced
with positive intermediate depths. -/
def goodBlock (i : Nat) (ls : List PyStr) : Bool :=
  decide (ls ≠ [['\n']]) &&
  ls.all (fun l => isLine l &&
    !(isSubstr (beginBanner (stateName (i + 1))) l) &&
    !(isSubstr (endBanner (stateName i)) l)) &&
  goodDepths 0 ls

/-- Well-formedness of the content sections starting at schema
index i. -/
def goodSecs : Nat → List (List (List PyStr)) → Bool
  | _, [] => true
  | i, sec :: rest => sec.all (goodBlock i) && goodSecs (i + 1) rest

/-- Well-formedness of the header lines: nonempty, proper lines, none
containing the opening banner of the first content section. -/
def goodHdr (hdr : List PyStr) : Bool :=
  decide (hdr ≠ []) &&
  hdr.all (fun l => isLine l && !(isSubstr (beginBanner (stateName 1)) l))

/-- The text write_pbxproj produces for the content sections starting
at schema index i. -/
def secText (i : Nat) : List (List (List PyStr)) → PyStr
  | [] => []
  | sec :: rest =>
    beginBanner (stateName i) ++ ['\n'] ++ (sec.map List.flatten).flatten ++
      endBanner (stateName i) ++ ['\n', '\n'] ++ secText (i + 1) rest

/-- The same text as a list of lines. -/
def secLines (i : Nat) : List (List (List PyStr)) → List PyStr
  | [] => []
  | sec :: rest =>
    (beginBanner (stateName i) ++ ['\n']) :: sec.flatten ++
      [endBanner (stateName i) ++ ['\n'], ['\n']] ++ secLines (i + 1) rest

/-- The full serialized text of a canonical model. -/
def canonicalText (hdr : List PyStr) (secs : List (List (List PyStr))) (ftr : PyStr) :
    PyStr :=
  hdr.flatten ++ secText 1 secs ++ ftr

/- ### A concrete well-formed sample project text -/

/-- Header lines of the sample project text. -/
def cexHdr : List PyStr := ["// !$*UTF8*$!\n".data, "\x7b\n".data]

/-- Content sections of the sample project text: one build-file block in
the first section, the others empty. -/
def cexSecs : List (List (List PyStr)) :=
  [[["\t\tAA1001 /* app.png in Resources */ = \x7bisa = PBXBuildFile; \x7d;\n".data]],
   [], [], [], [], [], [], [], [], [], [], []]

/-- Footer text of the sample, following the blank line that separates
it from the last closing banner. -/
def cexFtr : PyStr := "\x7d\n".data

/-- The sample project text itself. -/
def cexText : PyStr := canonicalText cexHdr cexSecs cexFtr

/-- The model the parser yields for the sample text. -/
def cexModel : Model := mkModel cexHdr cexSecs (['\n'] ++ cexFtr)

/-- The text write_pbxproj emits for that model. -/
def cexText2 : PyStr := canonicalText cexHdr cexSecs (['\n'] ++ cexFtr)

/-- The model obtained by re-parsing the serialized text: the footer
has gained a leading newline. -/
def cexModel2 : Model := mkModel cexHdr cexSecs (['\n', '\n'] ++ cexFtr)

/-- The shape of list-valued property block that place_entries patches:
leading text, the anchor produced by the parent keyword, a newline, the
existing entries one per indented line, trailing text. -/
def mkListBlock (hd pfx : PyStr) (old : List PyStr) (ft : PyStr) : PyStr :=
  hd ++ pfx ++ " = (".data ++ ['\n'] ++
    (old.map (fun e => "\t\t\t\t".data ++ e ++ ['\n'])).flatten ++ ft

/- ### Supporting lemmas -/

theorem substAll_nil (data : List (PyStr × PyStr)) (hk : ∀ kv ∈ data, kv.1 ≠ []) :
    substAll [] data = [] := by
  induction data with
  | nil => rfl
  | cons kv rest ih =>
    have h1 : kv.1 ≠ [] := hk kv (by simp)
    have : pyReplace [] kv.1 kv.2 = [] := by
      simp [pyReplace, h1, pyReplaceAux]
    simp only [substAll, List.foldl_cons, this]
    exact ih (fun kv2 h2 => hk kv2 (by simp [h2]))

/- ### C5: applyPrefix preserves length and dash positions -/

/-- C5: for every prefix and identifier, applyPrefix returns a string of
exactly the length of the identifier, and every position at which the
identifier holds the separator character still holds it in the
result. -/
theorem applyPrefix_length_and_dashes (pfx uuid : PyStr) :
    (applyPrefix pfx uuid).length = uuid.length ∧
    ∀ i, i < uuid.length → uuid.getD i ' ' = '-' →
      (applyPrefix pfx uuid).getD i ' ' = '-' := by
  have hlen : (applyPrefix pfx uuid).length = uuid.length := by
    simp [applyPrefix, List.length_take, Nat.min_eq_left, Nat.le_max_right]
  refine ⟨hlen, ?_⟩
  intro i hi hdash
  have hi2 : i < (applyPrefix pfx uuid).length := by rw [hlen]; exact hi
  rw [List.getD_eq_getElem _ _ hi2]
  have hmax : i < max pfx.length uuid.length := lt_of_lt_of_le hi (Nat.le_max_right _ _)
  simp only [applyPrefix]
  rw [List.getElem_take]
  rw [List.getElem_map]
  rw [List.getElem_range]
  rw [if_pos ⟨hi, hdash⟩]
  exact hdash

/-- C5 witness: a concrete run of the theorem. -/
theorem applyPrefix_length_and_dashes_witness :
    (applyPrefix "CD".data "ABCD-EF".data).length = "ABCD-EF".data.length ∧
    (applyPrefix "CD".data "ABCD-EF".data).getD 4 ' ' = '-' :=
  ⟨(applyPrefix_length_and_dashes "CD".data "ABCD-EF".data).1,
   (applyPrefix_length_and_dashes "CD".data "ABCD-EF".data).2 4 (by decide) (by decide)⟩

/- ### C10: file_replace on empty substituted contents -/

/-- C10: when the file exists but the contents after substitution are
the empty string (in particular for an existing empty file whose keys
are all nonempty), file_replace takes the falsy branch and raises
FileNotFoundError instead of writing the file back. -/
theorem file_replace_empty_raises (contents : PyStr) (data : List (PyStr × PyStr)) :
    (substAll contents data = [] →
      file_replace contents data = ReplaceResult.fileNotFoundError) ∧
    ((∀ kv ∈ data, kv.1 ≠ []) →
      file_replace [] data = ReplaceResult.fileNotFoundError) := by
  constructor
  · intro h
    simp [file_replace, h]
  · intro hk
    simp [file_replace, substAll_nil data hk]

/-- C10 witness: a concrete run of the theorem on an empty file and on
a file whose single key erases the whole contents. -/
theorem file_replace_empty_raises_witness :
    file_replace "a".data [("a".data, [])] = ReplaceResult.fileNotFoundError ∧
    file_replace [] [("k".data, "v".data)] = ReplaceResult.fileNotFoundError :=
  ⟨(file_replace_empty_raises "a".data [("a".data, [])]).1 (by decide),
   (file_replace_empty_raises [] [("k".data, "v".data)]).2 (by decide)⟩

/- ### C3: file_replace_after patches more than the matched line ends -/

/-- C3: evaluation of file_replace_after at a file that contains no
occurrence of the key.  The contents should be left unchanged, but the
terminal pass of the scan loop (which still executes its splice with
pos0 = -1, a negative Python index) inserts the mapped value before the
final character: the file abc gains a spurious X. -/
theorem file_replace_after_spurious_insert :
    substAfterAll "abc\n".data [("k".data, "X".data)] 4 = some "abcX\n".data ∧
    file_replace_after "abc\n".data [("k".data, "X".data)] 4 =
      some (ReplaceResult.written "abcX\n".data) := by
  constructor
  · decide
  · decide

/- ### C8: filetree insertion -/

theorem ftLookup_ftSet (d : List (PyStr × FTree)) (k : PyStr) (v : FTree) :
    ftLookup (ftSet d k v) k = some v := by
  induction d with
  | nil => simp [ftSet, ftLookup]
  | cons kv rest ih =>
    obtain ⟨a, b⟩ := kv
    by_cases hak : a = k
    · simp [ftSet, hak, ftLookup]
    · simp [ftSet, hak, ftLookup, ih]

theorem ftSet_ftSet (d : List (PyStr × FTree)) (k : PyStr) (v w : FTree) :
    ftSet (ftSet d k v) k w = ftSet d k w := by
  induction d with
  | nil => simp [ftSet]
  | cons kv rest ih =>
    obtain ⟨a, b⟩ := kv
    by_cases hak : a = k
    · simp [ftSet, hak]
    · simp [ftSet, hak, ih]

theorem insertPath_lastwins (path : List PyStr) :
    ∀ (d : List (PyStr × FTree)) (t1 t2 : PyStr) (d1 : List (PyStr × FTree)),
      insertPath d path t1 = some d1 →
      insertPath d1 path t2 = insertPath d path t2 ∧
        (insertPath d path t2).isSome = true := by
  induction path with
  | nil =>
    intro d t1 t2 d1 h1
    simp only [insertPath] at h1 ⊢
    cases h1
    simp
  | cons e rest ih =>
    intro d t1 t2 d1 h1
    cases rest with
    | nil =>
      simp only [insertPath] at h1 ⊢
      cases h1
      simp [ftSet_ftSet]
    | cons x xs =>
      simp only [insertPath] at h1 ⊢
      set d2 := if (ftLookup d e).isSome = true then d else d ++ [(e, FTree.node [])] with hd2
      cases hlk : ftLookup d2 e with
      | none => simp only [hlk] at h1; cases h1
      | some sub0 =>
        cases sub0 with
        | leaf tag => simp only [hlk] at h1; cases h1
        | node sub =>
          simp only [hlk] at h1
          cases hrec : insertPath sub (x :: xs) t1 with
          | none => simp only [hrec, Option.map_none'] at h1; cases h1
          | some sub2 =>
            simp only [hrec, Option.map_some'] at h1
            cases h1
            obtain ⟨heq, hsome⟩ := ih sub t1 t2 sub2 hrec
            cases hsub3 : insertPath sub (x :: xs) t2 with
            | none => rw [hsub3] at hsome; cases hsome
            | some sub3 =>
              have hlk1 : ftLookup (ftSet d2 e (FTree.node sub2)) e =
                  some (FTree.node sub2) := ftLookup_ftSet d2 e _
              rw [hsub3] at heq
              simp only [hlk1, Option.isSome_some, if_true, hlk, heq, hsub3,
                Option.map_some', ftSet_ftSet]
              simp

/-- C8: inserting the same (path, tag) pair a second time via
insert_filetree leaves the filetree unchanged, and re-inserting the
same path with a different tag produces exactly the tree obtained by
inserting the new tag into the original tree: the leaf tag is
overwritten, last write wins, nothing is merged. -/
theorem insert_filetree_idempotent_lastwins (ft : List (PyStr × FTree))
    (p tag tag2 : PyStr) :
    (∀ ft1, insert_filetree ft [p] tag = some ft1 →
      insert_filetree ft1 [p] tag = some ft1) ∧
    (∀ ft1, insert_filetree ft [p] tag = some ft1 →
      insert_filetree ft1 [p] tag2 = insert_filetree ft [p] tag2) := by
  have hunf : ∀ (d : List (PyStr × FTree)) (t : PyStr),
      insert_filetree d [p] t = insertPath d (pySplit '/' p) t := by
    intro d t
    simp [insert_filetree]
  constructor
  · intro ft1 h1
    rw [hunf] at h1 ⊢
    have := insertPath_lastwins (pySplit '/' p) ft tag tag ft1 h1
    rw [this.1, h1]
  · intro ft1 h1
    rw [hunf, hunf]
    rw [hunf] at h1
    exact (insertPath_lastwins (pySplit '/' p) ft tag tag2 ft1 h1).1

/-- C8 witness: a concrete run of both parts of the theorem. -/
theorem insert_filetree_idempotent_lastwins_witness :
    insert_filetree [(("src".data : PyStr), FTree.node [("a.cpp".data, FTree.leaf "all".data)])]
      ["src/a.cpp".data] "all".data =
      some [("src".data, FTree.node [("a.cpp".data, FTree.leaf "all".data)])] ∧
    insert_filetree [(("src".data : PyStr), FTree.node [("a.cpp".data, FTree.leaf "all".data)])]
      ["src/a.cpp".data] "ios".data =
      insert_filetree [] ["src/a.cpp".data] "ios".data := by
  have h1 : insert_filetree ([] : List (PyStr × FTree)) ["src/a.cpp".data] "all".data =
      some [("src".data, FTree.node [("a.cpp".data, FTree.leaf "all".data)])] := by rfl
  exact ⟨(insert_filetree_idempotent_lastwins [] "src/a.cpp".data "all".data "all".data).1 _ h1,
    (insert_filetree_idempotent_lastwins [] "src/a.cpp".data "all".data "ios".data).2 _ h1⟩

/- ### C6 and C7: the Apple UUID service -/

theorem compute_Apple_UUID_shape (h : PyStr → PyStr) (u : List PyStr) (url : PyStr) :
    ∀ t r, compute_Apple_UUID h u url t = some r →
      r = ((h url).map pyUpper).take APPLE_SIZE := by
  suffices hk : ∀ fuel r, computeAppleFuel h u url fuel = some r →
      r = ((h url).map pyUpper).take APPLE_SIZE by
    intro t r hc
    exact hk (MAX_TRIES - t) r hc
  intro fuel
  induction fuel with
  | zero => intro r hc; cases hc
  | succ fuel ihk =>
    intro r hc
    by_cases hmem : ((h url).map pyUpper).take APPLE_SIZE ∈ u
    · rw [computeAppleFuel, if_pos hmem] at hc
      exact ihk r hc
    · rw [computeAppleFuel, if_neg hmem] at hc
      cases hc
      rfl

theorem compute_Apple_UUID_collision (h : PyStr → PyStr) (u : List PyStr) (url : PyStr)
    (hmem : ((h url).map pyUpper).take APPLE_SIZE ∈ u) :
    ∀ t, compute_Apple_UUID h u url t = none := by
  suffices hk : ∀ fuel, computeAppleFuel h u url fuel = none by
    intro t
    exact hk (MAX_TRIES - t)
  intro fuel
  induction fuel with
  | zero => rfl
  | succ fuel ihk => rw [computeAppleFuel, if_pos hmem]; exact ihk

theorem assocFind_append_self (d : List (PyStr × PyStr)) (k v : PyStr)
    (hnone : assocFind d k = none) : assocFind (d ++ [(k, v)]) k = some v := by
  induction d with
  | nil => simp [assocFind]
  | cons ab rest ih =>
    obtain ⟨a, b⟩ := ab
    by_cases hak : a = k
    · simp [assocFind, hak] at hnone
    · simp only [assocFind, hak, if_neg, List.cons_append] at hnone ⊢
      exact ih hnone

/-- C6: on one service instance, a second call of getAppleUUID with the
same url returns exactly the result of the first call; and when the url
was not already cached, any returned identifier is the 24-character
uppercase-hexadecimal truncation of the hash.  The third-party
shortuuid hash is abstracted as h; the format hypothesis hfmt records
its documented behaviour (at least 24 characters over the hexadecimal
alphabet the service configures). -/
theorem getAppleUUID_deterministic_and_hex (h : PyStr → PyStr) (svc : UUIDService)
    (url : PyStr)
    (hfmt : ∀ s, APPLE_SIZE ≤ (h s).length ∧ ∀ c ∈ h s, c ∈ SHORT_ALPHABET) :
    (getAppleUUID h (getAppleUUID h svc url).2 url).1 = (getAppleUUID h svc url).1 ∧
    (assocFind svc.apples url = none →
      ∀ r, (getAppleUUID h svc url).1 = some r →
        r.length = APPLE_SIZE ∧ ∀ c ∈ r, c ∈ "ABCDEF0123456789".data) := by
  constructor
  · cases hcache : assocFind svc.apples url with
    | some v => simp [getAppleUUID, hcache]
    | none =>
      cases hcomp : compute_Apple_UUID h svc.uniques url 0 with
      | none => simp [getAppleUUID, hcache, hcomp]
      | some r =>
        by_cases hr : r ≠ []
        · have hfound : assocFind (svc.apples ++ [(url, r)]) url = some r :=
            assocFind_append_self svc.apples url r hcache
          simp [getAppleUUID, hcache, hcomp, hr, hfound]
        · simp [getAppleUUID, hcache, hcomp, hr]
  · intro hcache r hr
    cases hcomp : compute_Apple_UUID h svc.uniques url 0 with
    | none => simp [getAppleUUID, hcache, hcomp] at hr
    | some r0 =>
      have hr0 : r0 = r := by
        by_cases hne : r0 ≠ [] <;> simp [getAppleUUID, hcache, hcomp, hne] at hr <;>
          simp [hr, hne]
      subst hr0
      have hshape := compute_Apple_UUID_shape h svc.uniques url 0 r0 hcomp
      subst hshape
      obtain ⟨hlen, hmem⟩ := hfmt url
      constructor
      · simp only [List.length_take, List.length_map]
        omega
      · intro c hc
        have hc2 : c ∈ ((h url).map pyUpper) := List.mem_of_mem_take hc
        obtain ⟨c0, hc0, hup⟩ := List.mem_map.mp hc2
        have halpha : c0 ∈ SHORT_ALPHABET := hmem c0 hc0
        subst hup
        revert halpha
        have : ∀ c0 ∈ SHORT_ALPHABET, pyUpper c0 ∈ "ABCDEF0123456789".data := by decide
        exact this c0

/-- C6 witness: a concrete run of the theorem with a stand-in hash that
emits 29 characters of the configured alphabet (the length shortuuid
produces for a 22-character alphabet). -/
theorem getAppleUUID_deterministic_and_hex_witness :
    (getAppleUUID (fun _ => "0123456789abcdef0123456789abc".data)
      (getAppleUUID (fun _ => "0123456789abcdef0123456789abc".data) UUIDService.init
        "https://x/y".data).2 "https://x/y".data).1 =
      (getAppleUUID (fun _ => "0123456789abcdef0123456789abc".data) UUIDService.init
        "https://x/y".data).1 ∧
    ("0123456789ABCDEF01234567".data : PyStr).length = APPLE_SIZE ∧
      ∀ c ∈ ("0123456789ABCDEF01234567".data : PyStr), c ∈ "ABCDEF0123456789".data := by
  have hfmt : ∀ s : PyStr, APPLE_SIZE ≤ ("0123456789abcdef0123456789abc".data : PyStr).length ∧
      ∀ c ∈ ("0123456789abcdef0123456789abc".data : PyStr), c ∈ SHORT_ALPHABET := by
    intro s
    constructor
    · decide
    · decide
  refine ⟨(getAppleUUID_deterministic_and_hex _ UUIDService.init "https://x/y".data
      (fun s => hfmt s)).1, ?_⟩
  have h2 := (getAppleUUID_deterministic_and_hex
    (fun _ => "0123456789abcdef0123456789abc".data) UUIDService.init "https://x/y".data
    (fun s => hfmt s)).2 (by rfl) "0123456789ABCDEF01234567".data
  exact h2 (by rfl)

/-- C7: when the candidate identifier computed for a url that is not
yet cached collides with an identifier already handed out (so that
every rehash attempt collides as well, the retry counter not being an
input of the hash), getAppleUUID gives up after the bounded number of
attempts and raises the RuntimeError modelled by none, leaving the
service state unchanged, instead of returning a duplicate or looping
forever. -/
theorem getAppleUUID_exhausted_retries (h : PyStr → PyStr) (svc : UUIDService)
    (url : PyStr)
    (hcache : assocFind svc.apples url = none)
    (hcol : ((h url).map pyUpper).take APPLE_SIZE ∈ svc.uniques) :
    getAppleUUID h svc url = (none, svc) := by
  have hnone := compute_Apple_UUID_collision h svc.uniques url hcol 0
  simp [getAppleUUID, hcache, hnone]

/-- C7 witness: a concrete run with a service that already owns the
only candidate the hash can produce. -/
theorem getAppleUUID_exhausted_retries_witness :
    getAppleUUID (fun _ => "0123456789abcdef0123456789abc".data)
      ⟨["0123456789ABCDEF01234567".data], [], []⟩ "https://x/y".data =
      (none, ⟨["0123456789ABCDEF01234567".data], [], []⟩) :=
  getAppleUUID_exhausted_retries _ _ _ (by rfl) (by decide)

/- ### C9 and C4: place_entries -/

theorem pyFind_zero (hay needle : PyStr) :
    pyFind hay needle 0 =
      (match findFrom hay needle with
       | some k => (k : Int)
       | none => -1) := by
  have h1 : ¬ ((0 : Int) < 0) := by omega
  have h2 : ¬ ((0 : Int) > (hay.length : Int)) := by omega
  simp only [pyFind, if_neg h1, if_neg h2, Int.toNat_zero, List.drop_zero]
  cases findFrom hay needle <;> simp

/-- C9: when a block contains no occurrence of the anchor text built
from the parent keyword, place_entries returns none (Python None)
rather than the unmodified block; consequently the assignment loop of
populate_assets stores None in place of a stored Assets group block
that lacks a children list. -/
theorem place_entries_no_anchor (obj : PyStr) (entries : List PyStr) (pfx : PyStr)
    (hno : findFrom obj (pfx ++ " = (".data) = none)
    (hpfx : pfx = "children".data)
    (hmark : isSubstr "/* Assets */ =".data obj = true) :
    place_entries obj entries pfx = none ∧
    populate_assets_groups [some obj] entries = [none] := by
  subst hpfx
  have hplace : place_entries obj entries "children".data = none := by
    simp only [place_entries, pyFind_zero, hno]
    simp
  constructor
  · exact hplace
  · simp [populate_assets_groups, hmark, hplace]

/-- C9 witness: a concrete Assets group block with no children list. -/
theorem place_entries_no_anchor_witness :
    place_entries "\t\tCD11 /* Assets */ = \x7bisa = PBXGroup;\x7d;\n".data
      ["AA /* x */,".data] "children".data = none ∧
    populate_assets_groups [some "\t\tCD11 /* Assets */ = \x7bisa = PBXGroup;\x7d;\n".data]
      ["AA /* x */,".data] = [none] :=
  place_entries_no_anchor _ _ _ (by decide) (by rfl) (by decide)

theorem findFrom_newline (l r : PyStr) (hl : '\n' ∉ l) :
    findFrom (l ++ '\n' :: r) ['\n'] = some l.length := by
  induction l with
  | nil => simp [findFrom, isPre]
  | cons c cs ih =>
    have hcne : c ≠ '\n' := fun hcc => hl (by simp [hcc])
    have hcs : '\n' ∉ cs := fun hmem => hl (by simp [hmem])
    have hpre : isPre ['\n'] (c :: (cs ++ '\n' :: r)) = false := by
      simp [isPre, Ne.symm hcne]
    simp only [List.cons_append, findFrom, hpre, if_neg, Bool.false_eq_true,
      ite_false, List.append_eq, ih hcs, Option.map_some', List.length_cons]

theorem pyFind_append_start (a b needle : PyStr) :
    pyFind (a ++ b) needle (a.length : Int) =
      (match findFrom b needle with
       | some k => ((a.length + k : Nat) : Int)
       | none => -1) := by
  have h1 : ¬ ((a.length : Int) < 0) := by omega
  have h2 : ¬ ((a.length : Int) > ((a ++ b).length : Int)) := by
    simp only [List.length_append]
    omega
  simp only [pyFind, if_neg h1, if_neg h2, Int.toNat_natCast, List.drop_left]
  cases findFrom b needle with
  | none => rfl
  | some k => simp

theorem pySliceTo_append (a b : PyStr) : pySliceTo (a ++ b) (a.length : Int) = a := by
  have h1 : ¬ ((a.length : Int) < 0) := by omega
  have h2 : min (a.length : Int) ((a ++ b).length : Int) = (a.length : Int) := by
    simp only [List.length_append]
    omega
  simp only [pySliceTo, if_neg h1, h2, Int.toNat_natCast, List.take_left]

theorem pySliceFrom_append (a b : PyStr) : pySliceFrom (a ++ b) (a.length : Int) = b := by
  have h1 : ¬ ((a.length : Int) < 0) := by omega
  have h2 : min (a.length : Int) ((a ++ b).length : Int) = (a.length : Int) := by
    simp only [List.length_append]
    omega
  simp only [pySliceFrom, if_neg h1, h2, Int.toNat_natCast, List.drop_left]

theorem joinSep_indent (new : List PyStr) (hne : new ≠ []) :
    "\t\t\t\t".data ++ joinSep "\n\t\t\t\t".data new ++ ['\n'] =
      (new.map (fun e => "\t\t\t\t".data ++ e ++ ['\n'])).flatten := by
  induction new with
  | nil => cases hne rfl
  | cons e rest ih =>
    cases rest with
    | nil => simp [joinSep]
    | cons x xs =>
      have hrec := ih (by simp)
      simp only [joinSep, List.map_cons, List.flatten_cons] at hrec ⊢
      rw [← hrec]
      simp [List.append_assoc]

/-- C4: splicing k new entries into a block whose anchor line holds the
parent keyword followed by a list of n existing one-per-line entries
yields exactly the block whose entry list is the new entries followed
by the old ones: the new entries are inserted in their given order
immediately after the anchor line, before the n existing entries, which
keep their relative order, for n + k entries in total. -/
theorem place_entries_splices (hd pfx ft : PyStr) (old new : List PyStr)
    (hne : new ≠ [])
    (hnl : '\n' ∉ pfx)
    (hfind : pyFind (mkListBlock hd pfx old ft) (pfx ++ " = (".data) 0 =
      (hd.length : Int)) :
    place_entries (mkListBlock hd pfx old ft) new pfx =
      some (mkListBlock hd pfx (new ++ old) ft) := by
  have hnl4 : '\n' ∉ (pfx ++ " = (".data : PyStr) := by
    intro hmem
    rcases List.mem_append.mp hmem with hmem2 | hmem2
    · exact hnl hmem2
    · revert hmem2
      decide
  have hsplit : mkListBlock hd pfx old ft =
      hd ++ ((pfx ++ " = (".data) ++ '\n' ::
        ((old.map (fun e => "\t\t\t\t".data ++ e ++ ['\n'])).flatten ++ ft)) := by
    simp [mkListBlock, List.append_assoc]
  have hsplitA : mkListBlock hd pfx old ft =
      (hd ++ pfx ++ " = (".data) ++ '\n' ::
        ((old.map (fun e => "\t\t\t\t".data ++ e ++ ['\n'])).flatten ++ ft) := by
    simp [mkListBlock, List.append_assoc]
  set B := (old.map (fun e => "\t\t\t\t".data ++ e ++ ['\n'])).flatten ++ ft with hB
  have hlenA : (hd ++ pfx ++ " = (".data).length = hd.length + (pfx.length + 4) := by
    have h4 : (" = (".data : PyStr).length = 4 := by rfl
    simp only [List.length_append, h4]
    omega
  have hpos : pyFind (mkListBlock hd pfx old ft) ['\n'] (hd.length : Int) =
      (((hd ++ pfx ++ " = (".data).length : Nat) : Int) := by
    rw [hsplit, pyFind_append_start]
    rw [findFrom_newline (pfx ++ " = (".data) B hnl4]
    rw [hlenA]
    simp [List.length_append]
  have hto : pySliceTo (mkListBlock hd pfx old ft)
      (((hd ++ pfx ++ " = (".data).length : Nat) : Int) = hd ++ pfx ++ " = (".data := by
    rw [hsplitA]
    exact pySliceTo_append _ _
  have hfrom : pySliceFrom (mkListBlock hd pfx old ft)
      (((hd ++ pfx ++ " = (".data).length : Nat) : Int) = '\n' :: B := by
    rw [hsplitA]
    exact pySliceFrom_append _ _
  have hne2 : ¬ ((hd.length : Int) = -1) := by omega
  simp only [place_entries, hfind, hne2, if_neg, ite_false, hpos, hto, hfrom]
  rw [Option.some_inj]
  have hjoin := joinSep_indent new hne
  simp at hjoin
  simp only [mkListBlock, hB]
  simp [List.map_append, List.flatten_append, ← hjoin, List.append_assoc]

/-- C4 witness: splicing one new entry into a children list holding one
existing entry. -/
theorem place_entries_splices_witness :
    place_entries (mkListBlock "\t".data "children".data ["AA /* old */,".data] "\t);\n".data)
      ["BB /* new */,".data] "children".data =
      some (mkListBlock "\t".data "children".data
        ["BB /* new */,".data, "AA /* old */,".data] "\t);\n".data) :=
  place_entries_splices "\t".data "children".data "\t);\n".data
    ["AA /* old */,".data] ["BB /* new */,".data]
    (by decide) (by decide) (by decide)

/- ### C2: negative brace depth aborts the parse -/

theorem pstep_brace_nonneg (st : PState) (l : PyStr) (st2 : PState)
    (hstep : pstep st l = some st2) (hnn : 0 ≤ st.brace) : 0 ≤ st2.brace := by
  simp only [pstep] at hstep
  split at hstep
  · cases hstep
    simp
  · split at hstep
    · cases hstep
      simpa using hnn
    · split at hstep
      · cases hacc : st.accum with
        | some a =>
          rw [hacc] at hstep
          dsimp only at hstep
          by_cases hcnd : a ≠ [] ∧ a ≠ ['\n']
          · rw [if_pos hcnd] at hstep
            cases hstep
            simpa using hnn
          · rw [if_neg hcnd] at hstep
            cases hstep
            exact hnn
        | none =>
          rw [hacc] at hstep
          cases hstep
          exact hnn
      · split at hstep
        · split at hstep
          next hbr => cases hstep
          next hbr =>
            split at hstep
            · split at hstep
              · cases hstep
                simp
              · cases hstep
                simp
            · cases hstep
              simp only
              omega
        · cases hstep
          exact hnn

theorem foldl_bind_none (ls : List PyStr) :
    ls.foldl (fun o l => o.bind (fun s => pstep s l)) none = none := by
  induction ls with
  | nil => rfl
  | cons l rest ih => simp [ih]

theorem foldP_cons (st : PState) (l : PyStr) (ls : List PyStr) :
    foldP st (l :: ls) =
      (match pstep st l with
       | some s2 => foldP s2 ls
       | none => none) := by
  cases h : pstep st l with
  | none => simp [foldP, List.foldl_cons, h, foldl_bind_none]
  | some s2 => simp [foldP, List.foldl_cons, h]

theorem foldP_append (st : PState) (a b : List PyStr) :
    foldP st (a ++ b) = (foldP st a).bind (fun s2 => foldP s2 b) := by
  simp only [foldP, List.foldl_append]
  cases h : foldP st a with
  | none =>
    simp only [foldP] at h
    rw [h, foldl_bind_none]
    rfl
  | some s2 =>
    simp only [foldP] at h
    rw [h]
    rfl

theorem braceDepths_neg (ls : List PyStr) : ∀ st, 0 ≤ st.brace →
    (braceDepths st ls).any (fun d => decide (d < 0)) = true → foldP st ls = none := by
  induction ls with
  | nil =>
    intro st h0 hany
    simp [braceDepths] at hany
  | cons l rest ih =>
    intro st h0 hany
    rw [foldP_cons]
    cases hstep : pstep st l with
    | none => rfl
    | some st2 =>
      simp only [braceDepths, hstep, List.any_cons, Bool.or_eq_true] at hany
      have hnn2 : 0 ≤ st2.brace := pstep_brace_nonneg st l st2 hstep h0
      show foldP st2 rest = none
      rcases hany with hbad | hrest
      · simp at hbad
        omega
      · exact ih st2 hnn2 hrest

/-- C2: whenever the running brace-depth counter maintained by the line
scan of parse_pbxproj goes negative, the whole parse returns none (the
printed-error early return modelling MalformedSource): no model,
partial or otherwise, is produced. -/
theorem parse_pbxproj_negative_brace (text : PyStr)
    (hneg : (braceDepths pinit (pyLines text)).any (fun d => decide (d < 0)) = true) :
    parse_pbxproj text = none := by
  have habort := braceDepths_neg (pyLines text) pinit (by decide) hneg
  simp [parse_pbxproj, parseLines, habort]

/-- C2 witness: a file whose first content line closes a brace that was
never opened. -/
theorem parse_pbxproj_negative_brace_witness :
    parse_pbxproj "/* Begin PBXBuildFile section */\n\x7d\n".data = none :=
  parse_pbxproj_negative_brace _ (by decide)

/- ### Line and substring infrastructure for the round-trip analysis -/

theorem isPre_append_self (n t : PyStr) : isPre n (n ++ t) = true := by
  induction n with
  | nil => rfl
  | cons c cs ih => simp [isPre, ih]

theorem findFrom_of_isPre (hay needle : PyStr) (hp : isPre needle hay = true) :
    findFrom hay needle = some 0 := by
  cases hay with
  | nil => simp [findFrom, hp]
  | cons c rest => simp [findFrom, hp]

theorem isSubstr_self_append (n t : PyStr) : isSubstr n (n ++ t) = true := by
  simp [isSubstr, findFrom_of_isPre _ _ (isPre_append_self n t)]

theorem isPre_false_of_short (n : PyStr) : ∀ h : PyStr, h.length < n.length →
    isPre n h = false := by
  induction n with
  | nil => intro h hlt; simp at hlt
  | cons c cs ih =>
    intro h hlt
    cases h with
    | nil => rfl
    | cons d ds =>
      simp only [List.length_cons, Nat.add_lt_add_iff_right] at hlt
      simp [isPre, ih ds hlt]

theorem findFrom_none_of_short (n : PyStr) : ∀ h : PyStr, h.length < n.length →
    findFrom h n = none := by
  intro h
  induction h with
  | nil =>
    intro hlt
    cases n with
    | nil => simp at hlt
    | cons c cs => simp [findFrom, isPre]
  | cons d ds ih =>
    intro hlt
    have h1 : isPre n (d :: ds) = false :=
      isPre_false_of_short n (d :: ds) hlt
    have h2 : findFrom ds n = none := by
      apply ih
      simp only [List.length_cons] at hlt
      omega
    simp [findFrom, h1, h2]

theorem isSubstr_false_of_short (n h : PyStr) (hlt : h.length < n.length) :
    isSubstr n h = false := by
  simp [isSubstr, findFrom_none_of_short n h hlt]

theorem linesAux_append (a : PyStr) : ∀ (acc b : PyStr), a.getLast? = some '\n' →
    linesAux (a ++ b) acc = linesAux a acc ++ linesAux b [] := by
  induction a with
  | nil => intro acc b h; simp at h
  | cons c rest ih =>
    intro acc b h
    by_cases hc : c = '\n'
    · subst hc
      cases rest with
      | nil => simp [linesAux]
      | cons d ds =>
        have h2 : (d :: ds).getLast? = some '\n' := by
          rwa [List.getLast?_cons_cons] at h
        have hih := ih [] b h2
        simp only [linesAux] at hih
        simpa [linesAux] using hih
    · cases rest with
      | nil => simp [List.getLast?, hc] at h
      | cons d ds =>
        have h2 : (d :: ds).getLast? = some '\n' := by
          rwa [List.getLast?_cons_cons] at h
        have hih := ih (c :: acc) b h2
        simp only [linesAux] at hih
        simpa [linesAux, hc] using hih

theorem pyLines_append (a b : PyStr) (h : a.getLast? = some '\n') :
    pyLines (a ++ b) = pyLines a ++ pyLines b :=
  linesAux_append a [] b h

theorem linesAux_single (c : PyStr) (h : '\n' ∉ c) : ∀ acc,
    linesAux (c ++ ['\n']) acc = [(acc.reverse ++ c) ++ ['\n']] := by
  induction c with
  | nil => intro acc; simp [linesAux]
  | cons d ds ih =>
    intro acc
    have hd : d ≠ '\n' := fun he => h (by simp [he])
    have hds : '\n' ∉ ds := fun he => h (by simp [he])
    simp [linesAux, hd, ih hds, List.append_assoc]

theorem pyLines_single (c : PyStr) (h : '\n' ∉ c) : pyLines (c ++ ['\n']) = [c ++ ['\n']] := by
  have := linesAux_single c h []
  simpa [pyLines] using this

theorem linesAux_flatten (s : PyStr) : ∀ acc, (linesAux s acc).flatten = acc.reverse ++ s := by
  induction s with
  | nil =>
    intro acc
    by_cases hacc : acc = [] <;> simp [linesAux, hacc]
  | cons c rest ih =>
    intro acc
    by_cases hc : c = '\n'
    · subst hc
      simp [linesAux, ih, List.append_assoc]
    · simp [linesAux, hc, ih, List.append_assoc]

theorem pyLines_flatten (s : PyStr) : (pyLines s).flatten = s := by
  simpa [pyLines] using linesAux_flatten s []

theorem isLine_spec (l : PyStr) (h : isLine l = true) :
    l = l.dropLast ++ ['\n'] ∧ '\n' ∉ l.dropLast := by
  simp only [isLine, Bool.and_eq_true, decide_eq_true_eq] at h
  obtain ⟨h1, h2⟩ := h
  have hne : l ≠ [] := by rintro rfl; simp at h1
  have h3 : l.getLast hne = '\n' := by
    have := List.getLast?_eq_getLast l hne
    rw [this] at h1
    exact Option.some_inj.mp h1
  constructor
  · conv_lhs => rw [← List.dropLast_append_getLast hne]
    rw [h3]
  · exact h2

theorem isLine_getLast (l : PyStr) (h : isLine l = true) : l.getLast? = some '\n' := by
  simp only [isLine, Bool.and_eq_true, decide_eq_true_eq] at h
  exact h.1

theorem isLine_ne_nil (l : PyStr) (h : isLine l = true) : l ≠ [] := by
  rintro rfl
  simp [isLine] at h

theorem pyLines_isLine (l : PyStr) (h : isLine l = true) : pyLines l = [l] := by
  obtain ⟨hdec, hnin⟩ := isLine_spec l h
  conv_lhs => rw [hdec]
  rw [pyLines_single _ hnin, ← hdec]

theorem flatten_lines_ne_nil (ls : List PyStr) (hne : ls ≠ [])
    (h : ∀ l ∈ ls, isLine l = true) : ls.flatten ≠ [] := by
  cases ls with
  | nil => cases hne rfl
  | cons l rest =>
    have hlne := isLine_ne_nil l (h l (by simp))
    rw [List.flatten_cons]
    intro hl
    exact hlne (List.append_eq_nil.mp hl).1

theorem flatten_lines_getLast (ls : List PyStr) (hne : ls ≠ [])
    (h : ∀ l ∈ ls, isLine l = true) : ls.flatten.getLast? = some '\n' := by
  induction ls with
  | nil => cases hne rfl
  | cons l rest ih =>
    cases rest with
    | nil =>
      simp only [List.flatten_cons, List.flatten_nil, List.append_nil]
      exact isLine_getLast l (h l (by simp))
    | cons x xs =>
      have hrest : (x :: xs).flatten ≠ [] :=
        flatten_lines_ne_nil (x :: xs) (by simp) (fun l2 hl2 => h l2 (by simp [hl2]))
      rw [List.flatten_cons, List.getLast?_append_of_ne_nil _ hrest]
      exact ih (by simp) (fun l2 hl2 => h l2 (by simp [hl2]))

theorem pyLines_flatten_of_lines (ls : List PyStr) (h : ∀ l ∈ ls, isLine l = true) :
    pyLines ls.flatten = ls := by
  induction ls with
  | nil => rfl
  | cons l rest ih =>
    rw [List.flatten_cons, pyLines_append _ _ (isLine_getLast l (h l (by simp)))]
    rw [pyLines_isLine l (h l (by simp))]
    rw [ih (fun l2 hl2 => h l2 (by simp [hl2]))]
    rfl

/- ### Single-line behaviour of the scan -/

theorem pstep_advance (i : Nat) (D : Model) (B : List (Option PyStr))
    (acc : Option PyStr) (d : Int) (btw : Bool)
    (hft : stateName i ≠ "PBXFooter") :
    pstep ⟨i, D, B, acc, d, btw⟩ (beginBanner (stateName (i + 1)) ++ ['\n']) =
      some ⟨i + 1, D ++ [(stateName i, flushB ⟨i, D, B, acc, d, btw⟩)], [],
        none, 0, false⟩ := by
  have hadv : isSubstr (beginBanner (stateName (i + 1)))
      (beginBanner (stateName (i + 1)) ++ ['\n']) = true := isSubstr_self_append _ _
  simp only [pstep]
  rw [if_pos (Or.inl ⟨hft, hadv⟩)]

theorem pstep_end_mid (i : Nat) (D : Model) (B : List (Option PyStr))
    (hnadv : isSubstr (beginBanner (stateName (i + 1)))
      (endBanner (stateName i) ++ ['\n']) = false)
    (hne12 : i ≠ PBX_SEQUENCE.length - 2)
    (hnh : stateName i ≠ "PBXHeader") (hnf : stateName i ≠ "PBXFooter") :
    pstep ⟨i, D, B, none, 0, false⟩ (endBanner (stateName i) ++ ['\n']) =
      some ⟨i, D, B, none, 0, false⟩ := by
  have hcomp : isSubstr (endBanner (stateName i))
      (endBanner (stateName i) ++ ['\n']) = true := isSubstr_self_append _ _
  simp only [pstep]
  rw [if_neg (by simp [hnadv, hne12])]
  rw [if_neg (by simp [hnh, hnf])]
  rw [if_pos hcomp]

theorem pstep_end12 (D : Model) (B : List (Option PyStr)) :
    pstep ⟨12, D, B, none, 0, false⟩ (endBanner (stateName 12) ++ ['\n']) =
      some ⟨13, D ++ [(stateName 12, B)], [], none, 0, false⟩ := by
  have hcomp : isSubstr (endBanner (stateName 12))
      (endBanner (stateName 12) ++ ['\n']) = true := isSubstr_self_append _ _
  have h12 : (12 : Nat) = PBX_SEQUENCE.length - 2 := by decide
  simp only [pstep]
  rw [if_pos (Or.inr ⟨hcomp, h12⟩)]
  rfl

theorem pstep_blank (i : Nat) (D : Model) (B : List (Option PyStr))
    (hnadv : isSubstr (beginBanner (stateName (i + 1))) ['\n'] = false)
    (hncomp : isSubstr (endBanner (stateName i)) ['\n'] = false)
    (hnh : stateName i ≠ "PBXHeader") (hnf : stateName i ≠ "PBXFooter") :
    pstep ⟨i, D, B, none, 0, false⟩ ['\n'] = some ⟨i, D, B, none, 0, false⟩ := by
  simp only [pstep]
  rw [if_neg (by simp [hnadv, hncomp])]
  rw [if_neg (by simp [hnh, hnf])]
  rw [if_neg (by simp [hncomp])]
  simp [group_parity, parityChar]

theorem pstep_footer (D : Model) (B : List (Option PyStr)) (acc : Option PyStr)
    (l : PyStr) :
    pstep ⟨13, D, B, acc, 0, false⟩ l =
      some ⟨13, D, B, some (acc.getD [] ++ l), 0, false⟩ := by
  have hft : stateName 13 = "PBXFooter" := by decide
  simp only [pstep]
  rw [if_neg (by simp [hft, PBX_SEQUENCE])]
  rw [if_pos (Or.inr hft)]

theorem pstep_header (acc : Option PyStr) (l : PyStr)
    (hl : isSubstr (beginBanner (stateName 1)) l = false) :
    pstep ⟨0, [], [], acc, 0, false⟩ l =
      some ⟨0, [], [], some (acc.getD [] ++ l), 0, false⟩ := by
  have hh : stateName 0 = "PBXHeader" := by decide
  simp only [pstep]
  rw [if_neg (by simp [hl, PBX_SEQUENCE])]
  rw [if_pos (Or.inl hh)]

theorem pstep_content_mid (i : Nat) (D : Model) (B : List (Option PyStr))
    (acc : Option PyStr) (d : Int) (l : PyStr)
    (hnadv : isSubstr (beginBanner (stateName (i + 1))) l = false)
    (hncomp : isSubstr (endBanner (stateName i)) l = false)
    (hnh : stateName i ≠ "PBXHeader") (hnf : stateName i ≠ "PBXFooter")
    (hpos : 0 < d + group_parity l) :
    pstep ⟨i, D, B, acc, d, false⟩ l =
      some ⟨i, D, B, some (acc.getD [] ++ l), d + group_parity l, false⟩ := by
  simp only [pstep]
  rw [if_neg (by simp [hnadv, hncomp])]
  rw [if_neg (by simp [hnh, hnf])]
  rw [if_neg (by simp [hncomp])]
  simp only [if_true]
  rw [if_neg (by omega)]
  rw [if_neg (by omega)]

theorem pstep_content_close (i : Nat) (D : Model) (B : List (Option PyStr))
    (acc : Option PyStr) (d : Int) (l : PyStr)
    (hnadv : isSubstr (beginBanner (stateName (i + 1))) l = false)
    (hncomp : isSubstr (endBanner (stateName i)) l = false)
    (hnh : stateName i ≠ "PBXHeader") (hnf : stateName i ≠ "PBXFooter")
    (hz : d + group_parity l = 0)
    (hblk : acc.getD [] ++ l ≠ ['\n']) :
    pstep ⟨i, D, B, acc, d, false⟩ l =
      some ⟨i, D, B ++ [some (acc.getD [] ++ l)], none, 0, false⟩ := by
  simp only [pstep]
  rw [if_neg (by simp [hnadv, hncomp])]
  rw [if_neg (by simp [hnh, hnf])]
  rw [if_neg (by simp [hncomp])]
  simp only [if_true]
  rw [if_neg (by omega)]
  rw [if_pos hz]
  rw [if_pos hblk]

/- ### Folding the scan over blocks and sections -/

theorem foldBlockAux (i : Nat) (hnh : stateName i ≠ "PBXHeader")
    (hnf : stateName i ≠ "PBXFooter") :
    ∀ (ls : List PyStr) (D : Model) (B : List (Option PyStr)) (pre : PyStr) (d : Int),
      (∀ l ∈ ls, isSubstr (beginBanner (stateName (i + 1))) l = false ∧
        isSubstr (endBanner (stateName i)) l = false) →
      goodDepths d ls = true →
      pre ++ ls.flatten ≠ ['\n'] →
      foldP ⟨i, D, B, some pre, d, false⟩ ls =
        some ⟨i, D, B ++ [some (pre ++ ls.flatten)], none, 0, false⟩ := by
  intro ls
  induction ls with
  | nil =>
    intro D B pre d hb hg hne
    simp [goodDepths] at hg
  | cons l rest ih =>
    intro D B pre d hb hg hne
    cases rest with
    | nil =>
      have hz : d + group_parity l = 0 := by
        simpa [goodDepths] using hg
      have hblk : (some pre : Option PyStr).getD [] ++ l ≠ ['\n'] := by
        simpa using hne
      have h1 := pstep_content_close i D B (some pre) d l (hb l (by simp)).1
        (hb l (by simp)).2 hnh hnf hz hblk
      rw [foldP_cons, h1]
      show some _ = _
      simp
    | cons x xs =>
      have hg2 : 0 < d + group_parity l ∧ goodDepths (d + group_parity l) (x :: xs) = true := by
        have := hg
        simp only [goodDepths, Bool.and_eq_true, decide_eq_true_eq] at this
        exact this
      have h1 := pstep_content_mid i D B (some pre) d l (hb l (by simp)).1
        (hb l (by simp)).2 hnh hnf hg2.1
      rw [foldP_cons, h1]
      show foldP ⟨i, D, B, some (pre ++ l), d + group_parity l, false⟩ (x :: xs) = _
      rw [ih D B (pre ++ l) (d + group_parity l)
        (fun l2 hl2 => hb l2 (by simp [hl2])) hg2.2
        (by simpa [List.append_assoc] using hne)]
      simp [List.append_assoc]

theorem goodBlock_parts (i : Nat) (ls : List PyStr) (hgb : goodBlock i ls = true) :
    ls ≠ [['\n']] ∧
    (∀ l ∈ ls, isLine l = true ∧
      isSubstr (beginBanner (stateName (i + 1))) l = false ∧
      isSubstr (endBanner (stateName i)) l = false) ∧
    goodDepths 0 ls = true := by
  simp only [goodBlock, Bool.and_eq_true, decide_eq_true_eq, List.all_eq_true] at hgb
  obtain ⟨⟨h1, h2⟩, h3⟩ := hgb
  refine ⟨h1, ?_, h3⟩
  intro l hl
  have := h2 l hl
  simp only [Bool.and_eq_true, Bool.not_eq_true'] at this
  exact ⟨this.1.1, this.1.2, this.2⟩

theorem foldBlock (i : Nat) (hnh : stateName i ≠ "PBXHeader")
    (hnf : stateName i ≠ "PBXFooter") (ls : List PyStr) (D : Model)
    (B : List (Option PyStr)) (hgb : goodBlock i ls = true) :
    foldP ⟨i, D, B, none, 0, false⟩ ls =
      some ⟨i, D, B ++ [some ls.flatten], none, 0, false⟩ := by
  obtain ⟨hne1, hall, hgd⟩ := goodBlock_parts i ls hgb
  cases ls with
  | nil => simp [goodDepths] at hgd
  | cons l rest =>
    cases rest with
    | nil =>
      have hz : (0 : Int) + group_parity l = 0 := by
        simpa [goodDepths] using hgd
      have hblk : (none : Option PyStr).getD [] ++ l ≠ ['\n'] := by
        simpa using fun he => hne1 (by rw [he])
      have h1 := pstep_content_close i D B none 0 l (hall l (by simp)).2.1
        (hall l (by simp)).2.2 hnh hnf hz hblk
      rw [foldP_cons, h1]
      show some _ = _
      simp
    | cons x xs =>
      have hg2 : 0 < (0 : Int) + group_parity l ∧
          goodDepths ((0 : Int) + group_parity l) (x :: xs) = true := by
        have := hgd
        simp only [goodDepths, Bool.and_eq_true, decide_eq_true_eq] at this
        exact this
      have h1 := pstep_content_mid i D B none 0 l (hall l (by simp)).2.1
        (hall l (by simp)).2.2 hnh hnf hg2.1
      rw [foldP_cons, h1]
      have hlen2 : ((none : Option PyStr).getD [] ++ l ++ (x :: xs).flatten).length ≠ 1 := by
        have hl1 : 1 ≤ l.length :=
          List.length_pos.mpr (isLine_ne_nil l (hall l (by simp)).1)
        have hx1 : 1 ≤ (x :: xs).flatten.length := by
          have := flatten_lines_ne_nil (x :: xs) (by simp)
            (fun l2 hl2 => (hall l2 (by simp [hl2])).1)
          exact List.length_pos.mpr this
        simp only [Option.getD_none, List.nil_append, List.length_append]
        omega
      have hne2 : (none : Option PyStr).getD [] ++ l ++ (x :: xs).flatten ≠ ['\n'] := by
        intro he
        rw [he] at hlen2
        simp at hlen2
      show foldP ⟨i, D, B, some ((none : Option PyStr).getD [] ++ l),
        (0 : Int) + group_parity l, false⟩ (x :: xs) = _
      rw [foldBlockAux i hnh hnf (x :: xs) D B _ _
        (fun l2 hl2 => ⟨(hall l2 (by simp [hl2])).2.1, (hall l2 (by simp [hl2])).2.2⟩)
        hg2.2 hne2]
      simp

theorem foldBlocks (i : Nat) (hnh : stateName i ≠ "PBXHeader")
    (hnf : stateName i ≠ "PBXFooter") (sec : List (List PyStr)) :
    ∀ (D : Model) (B : List (Option PyStr)),
      (∀ b ∈ sec, goodBlock i b = true) →
      foldP ⟨i, D, B, none, 0, false⟩ sec.flatten =
        some ⟨i, D, B ++ sec.map (fun b => some b.flatten), none, 0, false⟩ := by
  induction sec with
  | nil =>
    intro D B hsec
    simp [foldP]
  | cons b rest ih =>
    intro D B hsec
    rw [List.flatten_cons, foldP_append]
    rw [foldBlock i hnh hnf b D B (hsec b (by simp))]
    show foldP _ rest.flatten = _
    rw [ih D (B ++ [some b.flatten]) (fun b2 hb2 => hsec b2 (by simp [hb2]))]
    simp

theorem foldFooter (D : Model) (B : List (Option PyStr)) (ls : List PyStr) :
    ∀ (a : PyStr),
      foldP ⟨13, D, B, some a, 0, false⟩ ls =
        some ⟨13, D, B, some (a ++ ls.flatten), 0, false⟩ := by
  induction ls with
  | nil => intro a; simp [foldP]
  | cons l rest ih =>
    intro a
    rw [foldP_cons, pstep_footer D B (some a) l]
    show foldP ⟨13, D, B, some ((some a : Option PyStr).getD [] ++ l), 0, false⟩ rest = _
    simp only [Option.getD_some]
    rw [ih (a ++ l)]
    simp [List.append_assoc]

theorem foldHeader (ls : List PyStr) : ∀ (acc : Option PyStr),
    ls ≠ [] →
    (∀ l ∈ ls, isSubstr (beginBanner (stateName 1)) l = false) →
    foldP ⟨0, [], [], acc, 0, false⟩ ls =
      some ⟨0, [], [], some (acc.getD [] ++ ls.flatten), 0, false⟩ := by
  induction ls with
  | nil => intro acc hne; cases hne rfl
  | cons l rest ih =>
    intro acc _ hall
    rw [foldP_cons, pstep_header acc l (hall l (by simp))]
    cases rest with
    | nil =>
      show some _ = _
      simp
    | cons x xs =>
      show foldP ⟨0, [], [], some (acc.getD [] ++ l), 0, false⟩ (x :: xs) = _
      rw [ih (some (acc.getD [] ++ l)) (by simp)
        (fun l2 hl2 => hall l2 (by simp [hl2]))]
      simp [List.append_assoc]

/- ### Section chaining -/

theorem stateName_ne_footer_of_le (j : Nat) (hj : j ≤ 12) :
    stateName j ≠ "PBXFooter" := by
  interval_cases j <;> decide

theorem stateName_ne_header_of (j : Nat) (h1 : 1 ≤ j) (h2 : j ≤ 12) :
    stateName j ≠ "PBXHeader" := by
  interval_cases j <;> decide

theorem nadv_end_banner (i : Nat) (h1 : 1 ≤ i) (h2 : i ≤ 11) :
    isSubstr (beginBanner (stateName (i + 1)))
      (endBanner (stateName i) ++ ['\n']) = false := by
  interval_cases i <;> decide

theorem beginBanner_length (name : String) :
    (beginBanner name).length = 20 + name.data.length := by
  have h9 : ("/* Begin ".data : PyStr).length = 9 := rfl
  have h11 : (" section */".data : PyStr).length = 11 := rfl
  simp [beginBanner, List.length_append, h9, h11]
  omega

theorem endBanner_length (name : String) :
    (endBanner name).length = 18 + name.data.length := by
  have h7 : ("/* End ".data : PyStr).length = 7 := rfl
  have h11 : (" section */".data : PyStr).length = 11 := rfl
  simp [endBanner, List.length_append, h7, h11]
  omega

theorem nadv_blank (i : Nat) :
    isSubstr (beginBanner (stateName i)) ['\n'] = false := by
  apply isSubstr_false_of_short
  rw [beginBanner_length]
  simp
  omega

theorem ncomp_blank (i : Nat) :
    isSubstr (endBanner (stateName i)) ['\n'] = false := by
  apply isSubstr_false_of_short
  rw [endBanner_length]
  simp
  omega

theorem foldChain (secs : List (List (List PyStr))) : ∀ (i : Nat) (st : PState),
    secs ≠ [] →
    st.index + 1 = i →
    i + secs.length = 13 →
    goodSecs i secs = true →
    foldP st (secLines i secs) =
      some ⟨13, st.done ++ (stateName st.index, flushB st) :: mkSecs i secs, [],
        some ['\n'], 0, false⟩ := by
  induction secs with
  | nil => intro i st hne; cases hne rfl
  | cons sec rest ih =>
    intro i st _ hidx hlen hgood
    obtain ⟨idx, D, B, acc, d, btw⟩ := st
    simp only at hidx
    subst hidx
    simp only [List.length_cons] at hlen
    have hgood2 : (∀ b ∈ sec, goodBlock (idx + 1) b = true) ∧
        goodSecs (idx + 1 + 1) rest = true := by
      simpa [goodSecs, List.all_eq_true] using hgood
    have hnf1 : stateName idx ≠ "PBXFooter" :=
      stateName_ne_footer_of_le idx (by omega)
    have hnh2 : stateName (idx + 1) ≠ "PBXHeader" :=
      stateName_ne_header_of (idx + 1) (by omega) (by omega)
    have hnf2 : stateName (idx + 1) ≠ "PBXFooter" :=
      stateName_ne_footer_of_le (idx + 1) (by omega)
    simp only [secLines, List.cons_append, List.append_assoc, List.nil_append]
    rw [foldP_cons, pstep_advance idx D B acc d btw hnf1]
    show foldP ⟨idx + 1, D ++ [(stateName idx, flushB ⟨idx, D, B, acc, d, btw⟩)],
      [], none, 0, false⟩ _ = _
    rw [foldP_append]
    rw [foldBlocks (idx + 1) hnh2 hnf2 sec _ _ hgood2.1]
    show foldP ⟨idx + 1, D ++ [(stateName idx, flushB ⟨idx, D, B, acc, d, btw⟩)],
      [] ++ sec.map (fun b => some b.flatten), none, 0, false⟩ _ = _
    cases rest with
    | nil =>
      have h11 : idx = 11 := by simp at hlen; omega
      subst h11
      simp only [secLines]
      rw [foldP_cons]
      rw [pstep_end12 _ ([] ++ sec.map (fun b => some b.flatten))]
      show foldP _ (['\n'] :: []) = _
      rw [foldP_cons, pstep_footer _ _ none ['\n']]
      show some _ = _
      simp [mkSecs]
    | cons x xs =>
      have hle11 : idx + 1 ≤ 11 := by
        simp only [List.length_cons] at hlen
        omega
      have hne12 : idx + 1 ≠ PBX_SEQUENCE.length - 2 := by
        have hq : PBX_SEQUENCE.length = 14 := rfl
        omega
      rw [foldP_cons]
      rw [pstep_end_mid (idx + 1) _ _ (nadv_end_banner (idx + 1) (by omega) hle11)
        hne12 hnh2 hnf2]
      show foldP _ (['\n'] :: secLines (idx + 1 + 1) (x :: xs)) = _
      rw [foldP_cons]
      rw [pstep_blank (idx + 1) _ _ (nadv_blank (idx + 1 + 1)) (ncomp_blank (idx + 1))
        hnh2 hnf2]
      show foldP ⟨idx + 1, D ++ [(stateName idx, flushB ⟨idx, D, B, acc, d, btw⟩)],
        [] ++ sec.map (fun b => some b.flatten), none, 0, false⟩
        (secLines (idx + 1 + 1) (x :: xs)) = _
      rw [ih (idx + 1 + 1) _ (by simp) (by simp) (by simp at hlen ⊢; omega) hgood2.2]
      simp [flushB, mkSecs]

/- ### Serialization of canonical models -/

theorem joinBlocks_somes (xs : List PyStr) :
    joinBlocks (xs.map (fun b => some b)) = some xs.flatten := by
  induction xs with
  | nil => rfl
  | cons b rest ih => simp [joinBlocks, ih]

theorem stateName_big (j : Nat) (hj : 14 ≤ j) : stateName j = "" := by
  have hlen : PBX_SEQUENCE.length = 14 := rfl
  simp only [stateName]
  apply List.getD_eq_default
  omega

theorem newline_not_in_stateName (j : Nat) : '\n' ∉ (stateName j).data := by
  by_cases hj : j < 14
  · interval_cases j <;> decide
  · rw [stateName_big j (by omega)]
    simp

theorem newline_not_in_beginBanner (j : Nat) : '\n' ∉ beginBanner (stateName j) := by
  intro hmem
  simp only [beginBanner, List.mem_append] at hmem
  rcases hmem with (h1 | h2) | h3
  · revert h1; decide
  · exact newline_not_in_stateName j h2
  · revert h3; decide

theorem newline_not_in_endBanner (j : Nat) : '\n' ∉ endBanner (stateName j) := by
  intro hmem
  simp only [endBanner, List.mem_append] at hmem
  rcases hmem with (h1 | h2) | h3
  · revert h1; decide
  · exact newline_not_in_stateName j h2
  · revert h3; decide

theorem write_secs (secs : List (List (List PyStr))) : ∀ (i : Nat) (ftr : PyStr),
    1 ≤ i → i + secs.length ≤ 13 →
    write_pbxproj (mkSecs i secs ++ [("PBXFooter", [some ftr])]) =
      some (secText i secs ++ ftr) := by
  induction secs with
  | nil =>
    intro i ftr h1 h2
    simp [mkSecs, secText, write_pbxproj, sectionText, joinBlocks]
  | cons sec rest ih =>
    intro i ftr h1 h2
    have hnh : stateName i ≠ "PBXHeader" := by
      apply stateName_ne_header_of i h1
      simp only [List.length_cons] at h2
      omega
    have hnf : stateName i ≠ "PBXFooter" := by
      apply stateName_ne_footer_of_le i
      simp only [List.length_cons] at h2
      omega
    simp only [mkSecs, secText, List.cons_append, write_pbxproj]
    have hmap : sec.map (fun b => some b.flatten) =
        (sec.map List.flatten).map (fun b => some b) := by
      simp [List.map_map]
    rw [hmap]
    have hjb := joinBlocks_somes (sec.map List.flatten)
    have hsec : sectionText (stateName i) ((sec.map List.flatten).map (fun b => some b)) =
        some (beginBanner (stateName i) ++ ['\n'] ++ (sec.map List.flatten).flatten ++
          endBanner (stateName i) ++ ['\n', '\n']) := by
      simp only [sectionText, hjb, Option.map_some']
      simp [hnh, hnf, List.append_assoc]
    rw [hsec]
    simp only [List.append_eq]
    rw [ih (i + 1) ftr (by omega) (by simp only [List.length_cons] at h2; omega)]
    simp [List.append_assoc]

theorem write_canonical (hdr : List PyStr) (secs : List (List (List PyStr)))
    (ftr : PyStr) (hlen : secs.length = 12) :
    write_pbxproj (mkModel hdr secs ftr) = some (canonicalText hdr secs ftr) := by
  simp only [mkModel, canonicalText, write_pbxproj]
  have hsec : sectionText "PBXHeader" [some hdr.flatten] = some hdr.flatten := by
    simp [sectionText, joinBlocks]
  rw [hsec]
  simp only [List.append_eq]
  rw [write_secs secs 1 ftr (by omega) (by omega)]
  simp [List.append_assoc]

/- ### Lines of the canonical serialized text -/

theorem flatten_map_flatten (sec : List (List PyStr)) :
    (sec.map List.flatten).flatten = sec.flatten.flatten := by
  induction sec with
  | nil => rfl
  | cons b rest ih => simp [ih]

theorem pyLines_cons_line (c X : PyStr) (h : '\n' ∉ c) :
    pyLines (c ++ '\n' :: X) = (c ++ ['\n']) :: pyLines X := by
  have h2 : c ++ '\n' :: X = (c ++ ['\n']) ++ X := by simp
  have h3 : (c ++ ['\n']).getLast? = some '\n' := by
    rw [List.getLast?_append_of_ne_nil _ (by simp : (['\n'] : PyStr) ≠ [])]
    rfl
  rw [h2, pyLines_append _ _ h3, pyLines_single c h]
  rfl

theorem pyLines_newline_cons (X : PyStr) :
    pyLines ('\n' :: X) = ['\n'] :: pyLines X := by
  have := pyLines_cons_line [] X (by simp)
  simpa using this

theorem pyLines_blocks (ls : List PyStr) (X : PyStr)
    (h : ∀ l ∈ ls, isLine l = true) :
    pyLines (ls.flatten ++ X) = ls ++ pyLines X := by
  by_cases hls : ls = []
  · subst hls
    simp
  · rw [pyLines_append _ _ (flatten_lines_getLast ls hls h),
      pyLines_flatten_of_lines ls h]

theorem goodSecs_lines (i : Nat) (sec : List (List PyStr))
    (h : ∀ b ∈ sec, goodBlock i b = true) :
    ∀ l ∈ sec.flatten, isLine l = true := by
  intro l hl
  obtain ⟨b, hb, hlb⟩ := List.mem_flatten.mp hl
  exact ((goodBlock_parts i b (h b hb)).2.1 l hlb).1

theorem pyLines_secText (secs : List (List (List PyStr))) : ∀ (i : Nat) (ftr : PyStr),
    goodSecs i secs = true →
    pyLines (secText i secs ++ ftr) = secLines i secs ++ pyLines ftr := by
  induction secs with
  | nil =>
    intro i ftr _
    simp [secText, secLines]
  | cons sec rest ih =>
    intro i ftr hgood
    have hgood2 : (∀ b ∈ sec, goodBlock i b = true) ∧
        goodSecs (i + 1) rest = true := by
      simpa [goodSecs, List.all_eq_true] using hgood
    simp only [secText, secLines, List.append_assoc, List.cons_append,
      List.singleton_append, List.nil_append]
    rw [pyLines_cons_line _ _ (newline_not_in_beginBanner i)]
    rw [flatten_map_flatten]
    rw [pyLines_blocks _ _ (goodSecs_lines i sec hgood2.1)]
    rw [pyLines_cons_line _ _ (newline_not_in_endBanner i)]
    rw [pyLines_newline_cons]
    rw [ih (i + 1) ftr hgood2.2]

/- ### The canonical parse -/

theorem goodHdr_parts (hdr : List PyStr) (hh : goodHdr hdr = true) :
    hdr ≠ [] ∧ ∀ l ∈ hdr, isLine l = true ∧
      isSubstr (beginBanner (stateName 1)) l = false := by
  simp only [goodHdr, Bool.and_eq_true, decide_eq_true_eq, List.all_eq_true] at hh
  refine ⟨hh.1, fun l hl => ?_⟩
  have := hh.2 l hl
  simp only [Bool.and_eq_true, Bool.not_eq_true'] at this
  exact this

theorem parse_canonical (hdr : List PyStr) (secs : List (List (List PyStr)))
    (ftr : PyStr) (hh : goodHdr hdr = true) (hs : goodSecs 1 secs = true)
    (hlen : secs.length = 12) :
    parse_pbxproj (canonicalText hdr secs ftr) =
      some (mkModel hdr secs (['\n'] ++ ftr)) := by
  obtain ⟨hne, hlines⟩ := goodHdr_parts hdr hh
  have hlines2 : ∀ l ∈ hdr, isLine l = true := fun l hl => (hlines l hl).1
  have hfne : hdr.flatten ≠ [] := flatten_lines_ne_nil hdr hne hlines2
  have hsecs_ne : secs ≠ [] := by
    intro he
    rw [he] at hlen
    simp at hlen
  -- the lines of the canonical text
  have hlns : pyLines (canonicalText hdr secs ftr) =
      hdr ++ (secLines 1 secs ++ pyLines ftr) := by
    simp only [canonicalText, List.append_assoc]
    rw [pyLines_blocks hdr _ hlines2]
    rw [pyLines_secText secs 1 ftr hs]
  simp only [parse_pbxproj, parseLines, hlns, pinit]
  -- fold over the header
  rw [foldP_append]
  rw [foldHeader hdr none hne (fun l hl => (hlines l hl).2)]
  show (foldP ⟨0, [], [], some ((none : Option PyStr).getD [] ++ hdr.flatten), 0, false⟩
    (secLines 1 secs ++ pyLines ftr)).map pfinish = _
  simp only [Option.getD_none, List.nil_append]
  -- fold over the content sections
  rw [foldP_append]
  rw [foldChain secs 1 ⟨0, [], [], some hdr.flatten, 0, false⟩ hsecs_ne (by simp)
    (by omega) hs]
  show (foldP ⟨13, [] ++ (stateName 0,
    flushB ⟨0, [], [], some hdr.flatten, 0, false⟩) :: mkSecs 1 secs, [],
    some ['\n'], 0, false⟩ (pyLines ftr)).map pfinish = _
  -- fold over the footer
  rw [foldFooter _ _ (pyLines ftr) ['\n']]
  simp only [Option.map_some']
  have hflush : flushB ⟨0, [], [], some hdr.flatten, 0, false⟩ = [some hdr.flatten] := by
    simp [flushB, hfne]
  have hname0 : stateName 0 = "PBXHeader" := by decide
  have hname13 : stateName 13 = "PBXFooter" := by decide
  simp only [pfinish, hflush, hname0, hname13, pyLines_flatten, mkModel]
  simp

theorem mkModel_footer_ne (hdr : List PyStr) (secs : List (List (List PyStr)))
    (ftr : PyStr) : mkModel hdr secs (['\n'] ++ ftr) ≠ mkModel hdr secs ftr := by
  intro he
  simp only [mkModel] at he
  have h2 := List.append_cancel_left he
  simp at h2

/-- C1 (amended): for every well-formed project text, namely one whose
parse is a model with a nonempty banner-free header section, twelve
content sections whose blocks are newline-terminated, banner-free and
brace-balanced with positive intermediate depth, and a footer block,
serialization succeeds and re-parsing the serialized text yields a
model identical to the first parse on the header and all twelve content
sections, while the footer block gains exactly one leading newline (the
serializer emits a blank separator line after the final closing banner,
and the re-parse, already in the footer state at that point, absorbs it
into the footer block); in particular the re-parsed model is never
equal to the original, refuting the byte-equivalent round trip the
specification states. -/
theorem parse_write_roundtrip_footer (t : PyStr) (hdr : List PyStr)
    (secs : List (List (List PyStr))) (ftr : PyStr)
    (_hparse : parse_pbxproj t = some (mkModel hdr secs ftr))
    (hh : goodHdr hdr = true) (hs : goodSecs 1 secs = true)
    (hlen : secs.length = 12) :
    write_pbxproj (mkModel hdr secs ftr) = some (canonicalText hdr secs ftr) ∧
    parse_pbxproj (canonicalText hdr secs ftr) =
      some (mkModel hdr secs (['\n'] ++ ftr)) ∧
    mkModel hdr secs (['\n'] ++ ftr) ≠ mkModel hdr secs ftr :=
  ⟨write_canonical hdr secs ftr hlen, parse_canonical hdr secs ftr hh hs hlen,
   mkModel_footer_ne hdr secs ftr⟩

/-- C1 witness: a concrete run of the amended round-trip theorem on the
sample project text. -/
theorem parse_write_roundtrip_footer_witness :
    write_pbxproj cexModel = some cexText2 ∧
    parse_pbxproj cexText2 = some cexModel2 ∧
    cexModel2 ≠ cexModel :=
  parse_write_roundtrip_footer cexText cexHdr cexSecs (['\n'] ++ cexFtr)
    (parse_canonical cexHdr cexSecs cexFtr (by decide) (by decide) (by decide))
    (by decide) (by decide) (by decide)

/-- C1 counterexample: the sample text cexText is well formed (its
parse succeeds with all fourteen sections), yet parsing its
serialization does not reproduce the model of the first parse: the
footer block has gained a leading newline. -/
theorem parse_write_roundtrip_cex :
    parse_pbxproj cexText = some cexModel ∧
    write_pbxproj cexModel = some cexText2 ∧
    parse_pbxproj cexText2 = some cexModel2 ∧
    cexModel2 ≠ cexModel :=
  ⟨parse_canonical cexHdr cexSecs cexFtr (by decide) (by decide) (by decide),
   write_canonical cexHdr cexSecs (['\n'] ++ cexFtr) (by decide),
   parse_canonical cexHdr cexSecs (['\n'] ++ cexFtr) (by decide) (by decide) (by decide),
   mkModel_footer_ne cexHdr cexSecs ('\n' :: cexFtr)⟩
